import Mathlib

/-!
Shallow embedding of `enocean/protocol/eep.py` (class `EEP`).

Bit sequences are `List Bool` (the Python code manipulates lists of booleans
produced elsewhere in the library).  Machine integers are `Nat`; the XML
attribute values (`offset`, `size`, `value`, `start`, `end`, `command`,
`direction`) are modelled as the natural numbers they parse to, and the
floating-point `range`/`scale` attributes are modelled as exact rationals.

Fallible Python operations (list index assignment raising `IndexError`,
`int('', 2)` raising `ValueError`, field conversions raising
`ZeroDivisionError` / `AttributeError`) are rendered with `Option` / `Except`.
-/

/-- Parse a list of bits as an unsigned integer, most-significant bit first.
Models `int(''.join(['1' if digit else '0' for digit in slice]), 2)` on a
non-empty slice. -/
def bitsToNat (l : List Bool) : Nat :=
  l.foldl (fun acc b => 2 * acc + (if b then 1 else 0)) 0

/-- `EEP._get_raw`, total version: the Python slice `bitarray[offset:offset+size]`
is `(bitarray.drop offset).take size` (slices silently truncate at the end of
the list), and the resulting bit string is parsed MSB-first.  On any non-empty
slice this agrees with Python; `read_unsigned` below additionally models the
`ValueError` that `int('', 2)` raises on an empty slice. -/
def get_raw (bitarray : List Bool) (offset size : Nat) : Nat :=
  bitsToNat ((bitarray.drop offset).take size)

/-- `EEP._set_raw`: `for digit in range(size): bitarray[offset+digit] =
(raw_value >> (size-digit-1)) & 0x01 != 0`, as a fold over `List.range size`,
assuming every index is in bounds (Python list assignment in bounds is
`List.set`). -/
def set_raw (bitarray : List Bool) (offset size raw_value : Nat) : List Bool :=
  (List.range size).foldl
    (fun bl digit => bl.set (offset + digit) (raw_value.testBit (size - digit - 1)))
    bitarray

/-- One Python list assignment `bitarray[i] = b`: in bounds it is `List.set`,
out of bounds it raises `IndexError` (modelled as `none`). -/
def setBit (bitarray : List Bool) (i : Nat) (b : Bool) : Option (List Bool) :=
  if i < bitarray.length then some (bitarray.set i b) else none

/-- `EEP._set_raw` with Python's error behaviour made explicit: the loop of
index assignments, each of which can raise `IndexError`. -/
def write_unsigned (bitarray : List Bool) (offset size raw_value : Nat) :
    Option (List Bool) :=
  (List.range size).foldlM
    (fun bl digit => setBit bl (offset + digit) (raw_value.testBit (size - digit - 1)))
    bitarray

/-- `EEP._get_raw` with Python's error behaviour made explicit: slicing
truncates silently, and `int(s, 2)` raises `ValueError` exactly when the
sliced string `s` is empty. -/
def read_unsigned (bitarray : List Bool) (offset size : Nat) : Option Nat :=
  let slice := (bitarray.drop offset).take size
  if slice.isEmpty then none else some (bitsToNat slice)

/-- An `<item value=... description=.../>` child of an `<enum>` field. -/
structure EnumItem where
  value : Nat
  description : String
deriving DecidableEq, Repr

/-- A `<rangeitem start=... end=... description=.../>` child of an `<enum>`
field (`end` is a Lean keyword, so the attribute is called `stop` here). -/
structure RangeItem where
  start : Nat
  stop : Nat
  description : String
deriving DecidableEq, Repr

/-- The decoded value of one field: a number, a formatted description string,
or a boolean, matching the three getters of `EEP`. -/
inductive FieldValue
  | num (q : ℚ)
  | str (s : String)
  | bool (b : Bool)
deriving DecidableEq, Repr

/-- One entry of the dictionary built by `EEP.get_values`:
`{'description': ..., 'unit': ..., 'value': ..., 'raw_value': ...}`. -/
structure DecodedValue where
  description : String
  unit : String
  value : FieldValue
  raw_value : Nat
deriving DecidableEq, Repr

/-- A field description element inside a `<data>` variant, one constructor per
tag that `EEP.get_values` dispatches on (`value`, `enum`, `status`). -/
inductive FieldDef
  | value (shortcut description unit : String) (offset size : Nat)
      (rngMin rngMax sclMin sclMax : ℚ)
  | enum (shortcut description unit : String) (offset size : Nat)
      (items : List EnumItem) (rangeItems : List RangeItem)
  | status (shortcut description unit : String) (offset size : Nat)
deriving DecidableEq, Repr

/-- The `shortcut` attribute of a field element. -/
def fieldShortcut : FieldDef → String
  | .value sc _ _ _ _ _ _ _ _ => sc
  | .enum sc _ _ _ _ _ _ => sc
  | .status sc _ _ _ _ => sc

/-- Errors of the per-field conversions: degenerate `range` in `_get_value`
(Python `ZeroDivisionError`) and unmatched enum raw value in `_get_enum`
(Python `AttributeError` on `None.get`). -/
inductive DecodeError
  | malformedField
deriving DecidableEq, Repr

/-- Substitute `sub` for every occurrence of the `\x7bvalue\x7d` placeholder in
a list of characters (structural recursion so that it evaluates in the
kernel). -/
def substValue (sub : List Char) : List Char → List Char
  | '\x7b' :: 'v' :: 'a' :: 'l' :: 'u' :: 'e' :: '\x7d' :: rest => sub ++ substValue sub rest
  | c :: rest => c :: substValue sub rest
  | [] => []

/-- Python `'...'.format(value=raw_value)`: substitute the raw value for the
`\x7bvalue\x7d` placeholder in an item description. -/
def formatValue (desc : String) (raw_value : Nat) : String :=
  ⟨substValue (toString raw_value).toList desc.toList⟩

/-- `EEP._get_rangeitem`: the first `rangeitem` whose inclusive
`range(start, end + 1)` contains the raw value. -/
def get_rangeitem (rangeItems : List RangeItem) (raw_value : Nat) : Option RangeItem :=
  rangeItems.find? (fun ri => decide (ri.start ≤ raw_value) && decide (raw_value ≤ ri.stop))

/-- `EEP._get_value`: linear rescale of the raw unsigned integer.  Python
raises `ZeroDivisionError` when `rng_max == rng_min`. -/
def get_value (shortcut description unit : String) (offset size : Nat)
    (rngMin rngMax sclMin sclMax : ℚ) (bitarray : List Bool) :
    Except DecodeError (String × DecodedValue) :=
  let raw_value := get_raw bitarray offset size
  if rngMax = rngMin then .error .malformedField
  else
    .ok (shortcut,
      ⟨description, unit,
       .num ((sclMax - sclMin) / (rngMax - rngMin) * ((raw_value : ℚ) - rngMin) + sclMin),
       raw_value⟩)

/-- `EEP._get_enum`: look for an `item` whose `value` attribute equals the raw
value, then for a matching `rangeitem`; with no match Python calls
`None.get('description')` and raises `AttributeError`. -/
def get_enum (shortcut description unit : String) (offset size : Nat)
    (items : List EnumItem) (rangeItems : List RangeItem) (bitarray : List Bool) :
    Except DecodeError (String × DecodedValue) :=
  let raw_value := get_raw bitarray offset size
  let value_desc :=
    match items.find? (fun it => it.value == raw_value) with
    | some it => some it.description
    | none => (get_rangeitem rangeItems raw_value).map (fun ri => ri.description)
  match value_desc with
  | none => .error .malformedField
  | some d =>
      .ok (shortcut,
        ⟨description, unit, .str (formatValue d raw_value), raw_value⟩)

/-- `EEP._get_boolean`: `True if raw_value else False`. -/
def get_boolean (shortcut description unit : String) (offset size : Nat)
    (bitarray : List Bool) : Except DecodeError (String × DecodedValue) :=
  let raw_value := get_raw bitarray offset size
  .ok (shortcut, ⟨description, unit, .bool (raw_value != 0), raw_value⟩)

/-- One iteration of the `EEP.get_values` loop: dispatch on the child's tag.
`value` and `enum` fields read the data bit sequence, `status` fields read the
status bit sequence. -/
def decodeField (f : FieldDef) (bitarray status_bits : List Bool) :
    Except DecodeError (String × DecodedValue) :=
  match f with
  | .value sc d u o s rmin rmax smin smax => get_value sc d u o s rmin rmax smin smax bitarray
  | .enum sc d u o s items ritems => get_enum sc d u o s items ritems bitarray
  | .status sc d u o s => get_boolean sc d u o s status_bits

/-- `OrderedDict.update` with the single-entry dictionary a getter returns:
replace the value in place if the key is present, else append at the end. -/
def odUpdate (output : List (String × DecodedValue)) (kv : String × DecodedValue) :
    List (String × DecodedValue) :=
  if output.any (fun p => p.1 == kv.1) then
    output.map (fun p => if p.1 == kv.1 then (p.1, kv.2) else p)
  else output ++ [kv]

/-- Dictionary access `output[key]` on the ordered association list built by
`odUpdate`: the value of the first pair whose key matches. -/
def odLookup (key : String) : List (String × DecodedValue) → Option DecodedValue
  | [] => none
  | (k, v) :: rest => if k == key then some v else odLookup key rest

/-- The loop of `EEP.get_values` over the children of the `<data>` element,
threading the `output` ordered dictionary; an exception in any getter
propagates out of the loop. -/
def decodeFields : List FieldDef → List Bool → List Bool →
    List (String × DecodedValue) → Except DecodeError (List (String × DecodedValue))
  | [], _, _, output => .ok output
  | f :: rest, bitarray, status_bits, output =>
    match decodeField f bitarray status_bits with
    | .error e => .error e
    | .ok kv => decodeFields rest bitarray status_bits (odUpdate output kv)

/-- `EEP.get_values`: `None` profile yields an empty dictionary, otherwise the
children are decoded in declaration order. -/
def get_values (profile : Option (List FieldDef)) (bitarray status_bits : List Bool) :
    Except DecodeError (List (String × DecodedValue)) :=
  match profile with
  | none => .ok []
  | some fields => decodeFields fields bitarray status_bits []

/-- The `<command>` child of a profile: location of the command discriminator
inside the data bits. -/
structure CommandField where
  offset : Nat
  size : Nat
deriving DecidableEq, Repr

/-- One `<data>` child of a profile: optional `direction` and `command`
attributes plus the field elements in declaration order. -/
structure DataVariant where
  direction : Option Nat
  command : Option Nat
  fields : List FieldDef
deriving DecidableEq, Repr

/-- One `<profile>` element: optional `<command>` child and the `<data>`
children in declaration order. -/
structure Profile where
  commandField : Option CommandField
  datas : List DataVariant
deriving DecidableEq, Repr

/-- Python truthiness of the `command` argument in `if command:`:
`None` and `0` are falsy. -/
def commandTruthy : Option Nat → Bool
  | none => false
  | some c => c != 0

/-- `EEP.find_profile`, lines 175-205: variant selection once the profile has
been located in the registry (`profile.find('data')` is the first `<data>`
child; `profile.find('data[@attr="x"]')` is the first `<data>` child whose
attribute equals `x`). -/
def find_profile (profile : Profile) (bitarray : List Bool)
    (direction command : Option Nat) : Option DataVariant :=
  if commandTruthy command then
    match profile.commandField with
    | none => profile.datas.head?
    | some _ => profile.datas.find? (fun d => d.command == command)
  else
    match profile.commandField with
    | some eep_command =>
      let command_value := get_raw bitarray eep_command.offset eep_command.size
      match profile.datas.find? (fun d => d.command == some command_value) with
      | some found_data => some found_data
      | none => profile.datas.head?
    | none =>
      match direction with
      | none => profile.datas.head?
      | some dir => profile.datas.find? (fun d => d.direction == some dir)

/-! Concrete test fixtures used by counterexamples and witnesses. -/

/-- A `<data direction="1">` variant with no fields. -/
def varDirA : DataVariant := ⟨some 1, none, []⟩

/-- A `<data direction="2">` variant with no fields. -/
def varDirB : DataVariant := ⟨some 2, none, []⟩

/-- A profile without a `<command>` child and two direction-tagged variants. -/
def profC1 : Profile := ⟨none, [varDirA, varDirB]⟩

/-- A `<data command="1">` variant with no fields. -/
def varCmd1 : DataVariant := ⟨none, some 1, []⟩

/-- A profile with a `<command offset="0" size="4">` child and one variant,
tagged with command `1`. -/
def profC2 : Profile := ⟨some ⟨0, 4⟩, [varCmd1]⟩

/-- Data bits whose first four bits encode the unsigned integer `1`. -/
def bitsCmd1 : List Bool := [false, false, false, true]

/-- A `<data command="2">` variant with no fields. -/
def varCmd2 : DataVariant := ⟨none, some 2, []⟩

/-- A `<data command="3">` variant with no fields. -/
def varCmd3 : DataVariant := ⟨none, some 3, []⟩

/-- A profile with a `<command offset="0" size="4">` child and three variants,
tagged with commands `1`, `2`, `3` in declaration order. -/
def profC3 : Profile := ⟨some ⟨0, 4⟩, [varCmd1, varCmd2, varCmd3]⟩

/-- Data bits whose first four bits encode the unsigned integer `2`. -/
def bitsCmd2 : List Bool := [false, false, true, false]

/-- Data bits whose first four bits encode the unsigned integer `9`,
a command no variant of `profC3` carries. -/
def bitsCmd9 : List Bool := [true, false, false, true]

/-- Eight data bits, all zero (the byte `0x00`). -/
def bits00 : List Bool := List.replicate 8 false

/-- Eight data bits, all one (the byte `0xFF`). -/
def bitsFF : List Bool := List.replicate 8 true

/-- The 1-byte temperature field of the `0xA5`/`0x02`/`0x05` scenario:
`offset=0`, `size=8`, `range=[0,255]`, `scale=[-40.0,0.0]`. -/
def tmpField : FieldDef := .value "TMP" "Temperature" "°C" 0 8 0 255 (-40) 0

/-- An enum field whose single item has value `1`, so that raw value `0`
matches nothing and its conversion fails. -/
def enumNoMatch : FieldDef := .enum "E" "failing enum" "" 0 2 [⟨1, "One"⟩] []

/-- A single status bit at offset `0`. -/
def boolField : FieldDef := .status "S" "a status bit" "" 0 1

/-- An `item` with value `5` and description `Open`. -/
def openItem : EnumItem := ⟨5, "Open"⟩

/-- A `rangeitem` covering `6..10` with a format placeholder. -/
def midItem : RangeItem := ⟨6, 10, "Mid \x7bvalue\x7d"⟩

/-- An enum field with one declared item and one range-item. -/
def enumField8 : FieldDef := .enum "EN" "an enum" "" 0 4 [openItem] [midItem]

/-- Four data bits encoding the raw value `5`. -/
def bitsRaw5 : List Bool := [false, true, false, true]

/-- Four data bits encoding the raw value `7`. -/
def bitsRaw7 : List Bool := [false, true, true, true]

/-- A status-bit field with shortcut `X` at offset `0`. -/
def statusX1 : FieldDef := .status "X" "first" "" 0 1

/-- A second status-bit field, also with shortcut `X`, at offset `1`. -/
def statusX2 : FieldDef := .status "X" "second" "" 1 1

/-- Status bits for the duplicate-shortcut scenario: offset `0` holds `0`,
offset `1` holds `1`. -/
def statusBitsX : List Bool := [false, true]

/-! Theorems.  Each claim of the specification is settled by one theorem,
named after the claim. -/

/-- C10: for every profile, direction and data bit sequence, resolving with an
explicit command equal to `0` returns the same variant as resolving with no
command at all (`if command:` is false both for `None` and for `0`, so the
explicit-command branch is taken only for non-zero commands). -/
theorem c10_zero_command_like_none (p : Profile) (bitarray : List Bool)
    (direction : Option Nat) :
    find_profile p bitarray direction (some 0) = find_profile p bitarray direction none := rfl

/-- C1 counterexample: a profile without a command-discriminator field, with a
variant matching the requested direction `2` that is not the first variant;
called with an explicit command `5`, `find_profile` returns the first variant
`varDirA` (which does not match direction `2`) instead of the matching variant
`varDirB`.  The claim that the direction-matching variant is returned is
therefore false. -/
theorem c1_counterexample :
    profC1.commandField = none ∧
    varDirB ∈ profC1.datas ∧ varDirB.direction = some 2 ∧
    find_profile profC1 [] (some 2) (some 5) = some varDirA ∧
    varDirA.direction ≠ some 2 := by decide

/-- C1 (amended): for every profile with no command-discriminator field, when
the caller supplies a non-zero explicit command, `find_profile` returns the
first variant in declaration order, ignoring the requested direction. -/
theorem c1_no_command_field_first_variant (p : Profile) (bitarray : List Bool)
    (direction : Option Nat) (c : Nat) (hnf : p.commandField = none) (hc : c ≠ 0) :
    find_profile p bitarray direction (some c) = p.datas.head? := by
  simp [find_profile, commandTruthy, hnf, hc]

/-- C1 witness: the amended claim instantiated on `profC1`. -/
theorem c1_witness :
    profC1.commandField = none ∧ (5 : Nat) ≠ 0 ∧
    find_profile profC1 [] (some 2) (some 5) = profC1.datas.head? :=
  ⟨rfl, by decide, c1_no_command_field_first_variant profC1 [] (some 2) 5 rfl (by decide)⟩

/-- C2 counterexample: a profile with a command-discriminator field whose only
variant is tagged with command `1`, and data bits encoding command `1`;
called with the explicit command `0`, the claim demands the absent result
(no variant's command equals `0`), but `find_profile` treats `0` as "no
command supplied", decodes the command from the bits and returns the variant
tagged `1`. -/
theorem c2_counterexample :
    profC2.commandField ≠ none ∧
    (∀ d ∈ profC2.datas, d.command ≠ some 0) ∧
    find_profile profC2 bitsCmd1 none (some 0) = some varCmd1 := by decide

/-- C2 (amended): for every profile with a command-discriminator field, when
the caller supplies a non-zero explicit command, `find_profile` returns the
variant whose `command` attribute equals the supplied value, and returns
`none` when no variant's command equals it, with no fallback. -/
theorem c2_explicit_command_exact_match (p : Profile) (bitarray : List Bool)
    (direction : Option Nat) (c : Nat) (cf : CommandField)
    (hcf : p.commandField = some cf) (hc : c ≠ 0) :
    ((∃ d ∈ p.datas, d.command = some c) →
      ∃ d, find_profile p bitarray direction (some c) = some d ∧
        d ∈ p.datas ∧ d.command = some c) ∧
    ((∀ d ∈ p.datas, d.command ≠ some c) →
      find_profile p bitarray direction (some c) = none) := by
  have htr : commandTruthy (some c) = true := by simp [commandTruthy, hc]
  constructor
  · rintro ⟨d, hd, hdc⟩
    cases hfind : p.datas.find? (fun d => d.command == some c) with
    | none =>
        rw [List.find?_eq_none] at hfind
        exact absurd (by simp [hdc]) (hfind d hd)
    | some d' =>
        refine ⟨d', ?_, List.mem_of_find?_eq_some hfind, ?_⟩
        · simp [find_profile, htr, hcf, hfind]
        · have := List.find?_some hfind
          simpa using this
  · intro hall
    have hfind : p.datas.find? (fun d => d.command == some c) = none := by
      rw [List.find?_eq_none]
      intro d hd
      simp [hall d hd]
    simp [find_profile, htr, hcf, hfind]

/-- C2 witness: the amended claim instantiated on `profC2` with command `1`. -/
theorem c2_witness :
    profC2.commandField = some ⟨0, 4⟩ ∧ (1 : Nat) ≠ 0 ∧
    ∃ d, find_profile profC2 [] none (some 1) = some d ∧
      d ∈ profC2.datas ∧ d.command = some 1 :=
  ⟨rfl, by decide,
    (c2_explicit_command_exact_match profC2 [] none 1 ⟨0, 4⟩ rfl (by decide)).1
      ⟨varCmd1, by decide, rfl⟩⟩

/-- C3: for every profile with a command-discriminator field, when no explicit
command is supplied, `find_profile` decodes the raw unsigned integer at the
discriminator's offset/size from the data bits; if a variant's `command`
equals that raw value it returns such a variant, and otherwise it returns the
first declared variant. -/
theorem c3_command_decoded_from_bits (p : Profile) (bitarray : List Bool)
    (direction : Option Nat) (cf : CommandField)
    (hcf : p.commandField = some cf) (hb : cf.offset + cf.size ≤ bitarray.length)
    (hs : 1 ≤ cf.size) :
    ((∃ d ∈ p.datas, d.command = some (get_raw bitarray cf.offset cf.size)) →
      ∃ d, find_profile p bitarray direction none = some d ∧
        d ∈ p.datas ∧ d.command = some (get_raw bitarray cf.offset cf.size)) ∧
    ((∀ d ∈ p.datas, d.command ≠ some (get_raw bitarray cf.offset cf.size)) →
      find_profile p bitarray direction none = p.datas.head?) := by
  constructor
  · rintro ⟨d, hd, hdc⟩
    cases hfind : p.datas.find?
        (fun d => d.command == some (get_raw bitarray cf.offset cf.size)) with
    | none =>
        rw [List.find?_eq_none] at hfind
        exact absurd (by simp [hdc]) (hfind d hd)
    | some d' =>
        refine ⟨d', ?_, List.mem_of_find?_eq_some hfind, ?_⟩
        · simp [find_profile, commandTruthy, hcf, hfind]
        · have := List.find?_some hfind
          simpa using this
  · intro hall
    have hfind : p.datas.find?
        (fun d => d.command == some (get_raw bitarray cf.offset cf.size)) = none := by
      rw [List.find?_eq_none]
      intro d hd
      simp [hall d hd]
    simp [find_profile, commandTruthy, hcf, hfind]

/-- C3 witness: on `profC3` (commands `1`, `2`, `3`), bits encoding command
`2` select the variant tagged `2`, and bits encoding the unmatched command `9`
fall back to the first declared variant. -/
theorem c3_witness :
    profC3.commandField = some ⟨0, 4⟩ ∧ 0 + 4 ≤ bitsCmd2.length ∧ 1 ≤ 4 ∧
    get_raw bitsCmd2 0 4 = 2 ∧ get_raw bitsCmd9 0 4 = 9 ∧
    (∃ d, find_profile profC3 bitsCmd2 none none = some d ∧
      d ∈ profC3.datas ∧ d.command = some (get_raw bitsCmd2 0 4)) ∧
    find_profile profC3 bitsCmd9 none none = profC3.datas.head? :=
  ⟨rfl, by decide, by decide, by decide, by decide,
    (c3_command_decoded_from_bits profC3 bitsCmd2 none ⟨0, 4⟩ rfl (by decide) (by decide)).1
      ⟨varCmd2, by decide, by decide⟩,
    (c3_command_decoded_from_bits profC3 bitsCmd9 none ⟨0, 4⟩ rfl (by decide) (by decide)).2
      (by decide)⟩

/-- Extensionality for `foldlM` over `Option`: folding functions that agree on
the list's members give the same result. -/
theorem foldlM_option_ext {α β : Type} (f g : β → α → Option β) (l : List α)
    (h : ∀ a ∈ l, ∀ b, f b a = g b a) : ∀ b, l.foldlM f b = l.foldlM g b := by
  induction l with
  | nil => intro b; rfl
  | cons x xs ih =>
      intro b
      rw [List.foldlM_cons, List.foldlM_cons, h x (List.mem_cons_self x xs)]
      cases hg : g b x with
      | none => rfl
      | some b' => exact ih (fun a ha b => h a (List.mem_cons_of_mem x ha) b) b'

/-- Writing a field of size `0` leaves the bit sequence unchanged. -/
theorem set_raw_zero (bitarray : List Bool) (offset raw_value : Nat) :
    set_raw bitarray offset 0 raw_value = bitarray := rfl

/-- Unfolding of the `_set_raw` loop: the first `size` iterations write the
high bits (that is, they write `raw_value / 2` over a window one bit shorter)
and the last iteration writes the lowest bit at `offset + size`. -/
theorem set_raw_succ (bitarray : List Bool) (offset size raw_value : Nat) :
    set_raw bitarray offset (size + 1) raw_value =
      (set_raw bitarray offset size (raw_value / 2)).set (offset + size)
        (raw_value.testBit 0) := by
  unfold set_raw
  rw [List.range_succ, List.foldl_append]
  simp only [List.foldl_cons, List.foldl_nil]
  have h0 : size + 1 - size - 1 = 0 := by omega
  rw [h0]
  congr 1
  apply List.foldl_ext
  intro bl digit hdig
  rw [List.mem_range] at hdig
  have h1 : size + 1 - digit - 1 = (size - digit - 1) + 1 := by omega
  rw [h1, ← Nat.testBit_div_two]

/-- `_set_raw` preserves the length of the bit sequence. -/
theorem set_raw_length (bitarray : List Bool) (offset size raw_value : Nat) :
    (set_raw bitarray offset size raw_value).length = bitarray.length := by
  induction size generalizing raw_value with
  | zero => rfl
  | succ s ih => rw [set_raw_succ, List.length_set]; exact ih _

/-- Pointwise description of `_set_raw` when the window is in bounds: inside
`[offset, offset+size)` the bits of `raw_value` appear MSB-first, outside the
window the sequence is unchanged. -/
theorem set_raw_getElem? (bitarray : List Bool) (offset size raw_value : Nat)
    (h : offset + size ≤ bitarray.length) (i : Nat) :
    (set_raw bitarray offset size raw_value)[i]? =
      if offset ≤ i ∧ i < offset + size then
        some (raw_value.testBit (offset + size - 1 - i))
      else bitarray[i]? := by
  revert h
  induction size generalizing raw_value with
  | zero =>
      intro h
      rw [set_raw_zero, if_neg (by omega : ¬(offset ≤ i ∧ i < offset + 0))]
  | succ s ih =>
      intro h
      have h' : offset + s ≤ bitarray.length := by omega
      rw [set_raw_succ, List.getElem?_set, set_raw_length]
      by_cases hi : offset + s = i
      · rw [if_pos hi, if_pos (by omega : offset + s < bitarray.length),
          if_pos (by omega : offset ≤ i ∧ i < offset + (s + 1))]
        have hidx : offset + (s + 1) - 1 - i = 0 := by omega
        rw [hidx]
      · rw [if_neg hi, ih (raw_value / 2) h']
        by_cases hw : offset ≤ i ∧ i < offset + s
        · rw [if_pos hw, if_pos (by omega : offset ≤ i ∧ i < offset + (s + 1))]
          have hidx : offset + s - 1 - i + 1 = offset + (s + 1) - 1 - i := by omega
          rw [Nat.testBit_div_two, hidx]
        · rw [if_neg hw, if_neg (by omega : ¬(offset ≤ i ∧ i < offset + (s + 1)))]

/-- The written window of `_set_raw`, read back as a slice, is exactly the
MSB-first bit list of `raw_value`. -/
theorem set_raw_slice (bitarray : List Bool) (offset size raw_value : Nat)
    (h : offset + size ≤ bitarray.length) :
    ((set_raw bitarray offset size raw_value).drop offset).take size =
      (List.range size).map (fun j => raw_value.testBit (size - 1 - j)) := by
  apply List.ext_getElem?
  intro n
  rw [List.getElem?_take, List.getElem?_map]
  by_cases hn : n < size
  · rw [if_pos hn, List.getElem?_drop, set_raw_getElem? _ _ _ _ h,
      if_pos (by omega : offset ≤ offset + n ∧ offset + n < offset + size),
      List.getElem?_range hn]
    have hidx : offset + size - 1 - (offset + n) = size - 1 - n := by omega
    rw [hidx]
    rfl
  · rw [if_neg hn, List.getElem?_eq_none (by simpa using Nat.le_of_not_lt hn)]
    rfl

/-- Folding the binary parse from an arbitrary accumulator. -/
theorem bitsToNat_foldl (l : List Bool) (a : Nat) :
    l.foldl (fun acc b => 2 * acc + (if b then 1 else 0)) a =
      a * 2 ^ l.length + bitsToNat l := by
  induction l generalizing a with
  | nil => simp [bitsToNat]
  | cons x l ih =>
      rw [List.foldl_cons, ih]
      have hx : bitsToNat (x :: l) =
          (2 * 0 + (if x then 1 else 0)) * 2 ^ l.length + bitsToNat l := by
        rw [bitsToNat, List.foldl_cons, ih]
      rw [hx, List.length_cons]
      ring

/-- Splitting a modulus `2 ^ (s + 1)` into the bit at position `s` and the
remainder modulo `2 ^ s`. -/
theorem mod_two_pow_succ (v s : Nat) :
    v % 2 ^ (s + 1) = (if v.testBit s then 1 else 0) * 2 ^ s + v % 2 ^ s := by
  have hpow : 0 < 2 ^ s := pow_pos (by norm_num) s
  have hdm := Nat.div_add_mod v (2 ^ s)
  have hq2 := Nat.div_add_mod (v / 2 ^ s) 2
  have hv : v = 2 ^ s * 2 * (v / 2 ^ s / 2) + (2 ^ s * (v / 2 ^ s % 2) + v % 2 ^ s) := by
    conv_lhs => rw [← hdm, ← hq2]
    ring
  have hmod2 : v / 2 ^ s % 2 ≤ 1 := by omega
  have hlt : 2 ^ s * (v / 2 ^ s % 2) + v % 2 ^ s < 2 ^ s * 2 := by
    have h1 : 2 ^ s * (v / 2 ^ s % 2) ≤ 2 ^ s := by
      calc 2 ^ s * (v / 2 ^ s % 2) ≤ 2 ^ s * 1 := Nat.mul_le_mul_left _ hmod2
        _ = 2 ^ s := Nat.mul_one _
    have h2 : v % 2 ^ s < 2 ^ s := Nat.mod_lt _ hpow
    generalize 2 ^ s * (v / 2 ^ s % 2) = P at h1 ⊢
    omega
  rw [pow_succ]
  conv_lhs => rw [hv]
  rw [Nat.mul_add_mod, Nat.mod_eq_of_lt hlt, Nat.testBit_to_div_mod]
  rcases Nat.mod_two_eq_zero_or_one (v / 2 ^ s) with h | h
  · rw [h]; simp
  · rw [h]; simp

/-- Parsing the MSB-first bit list of `raw_value` of width `size` recovers
`raw_value` modulo `2 ^ size`. -/
theorem bitsToNat_msb (v size : Nat) :
    bitsToNat ((List.range size).map (fun j => v.testBit (size - 1 - j))) = v % 2 ^ size := by
  induction size with
  | zero => simp [bitsToNat, Nat.mod_one]
  | succ s ih =>
      rw [List.range_succ_eq_map, List.map_cons, List.map_map]
      have hfun : ((fun j => v.testBit (s + 1 - 1 - j)) ∘ Nat.succ) =
          (fun j => v.testBit (s - 1 - j)) := by
        funext j
        show v.testBit (s + 1 - 1 - (j + 1)) = v.testBit (s - 1 - j)
        congr 1
        omega
      rw [hfun, bitsToNat, List.foldl_cons, bitsToNat_foldl, List.length_map,
        List.length_range, ih]
      have h0 : s + 1 - 1 - 0 = s := by omega
      rw [h0, mod_two_pow_succ v s]
      ring

/-- Reading back a window just written by `_set_raw` yields the written value,
provided the window is in bounds and the value fits in `size` bits. -/
theorem get_raw_set_raw (bitarray : List Bool) (offset size raw_value : Nat)
    (h : offset + size ≤ bitarray.length) (hv : raw_value < 2 ^ size) :
    get_raw (set_raw bitarray offset size raw_value) offset size = raw_value := by
  rw [get_raw, set_raw_slice _ _ _ _ h, bitsToNat_msb, Nat.mod_eq_of_lt hv]

/-- Writing a field of size `0` cannot fail. -/
theorem write_unsigned_zero (bitarray : List Bool) (offset raw_value : Nat) :
    write_unsigned bitarray offset 0 raw_value = some bitarray := rfl

/-- Unfolding of the fallible `_set_raw` loop, mirroring `set_raw_succ`. -/
theorem write_unsigned_succ (bitarray : List Bool) (offset size raw_value : Nat) :
    write_unsigned bitarray offset (size + 1) raw_value =
      (write_unsigned bitarray offset size (raw_value / 2)).bind
        (fun bl => setBit bl (offset + size) (raw_value.testBit 0)) := by
  unfold write_unsigned
  rw [List.range_succ, List.foldlM_append]
  have hext : ∀ b : List Bool,
      (List.range size).foldlM
        (fun bl digit => setBit bl (offset + digit)
          (raw_value.testBit (size + 1 - digit - 1))) b =
      (List.range size).foldlM
        (fun bl digit => setBit bl (offset + digit)
          ((raw_value / 2).testBit (size - digit - 1))) b := by
    apply foldlM_option_ext
    intro digit hdig b
    rw [List.mem_range] at hdig
    have h1 : size + 1 - digit - 1 = (size - digit - 1) + 1 := by omega
    rw [h1, ← Nat.testBit_div_two]
  rw [hext]
  cases hfold : (List.range size).foldlM
      (fun bl digit => setBit bl (offset + digit)
        ((raw_value / 2).testBit (size - digit - 1))) bitarray with
  | none => rfl
  | some b =>
      show List.foldlM
          (fun bl digit => setBit bl (offset + digit)
            (raw_value.testBit (size + 1 - digit - 1))) b [size] =
        setBit b (offset + size) (raw_value.testBit 0)
      have h0 : size + 1 - size - 1 = 0 := by omega
      simp only [List.foldlM_cons, List.foldlM_nil, h0, bind_pure]

/-- Characterization of the fallible write: it fails exactly when the window
sticks out of the sequence (and a size-`0` write is a no-op). -/
theorem write_unsigned_eq (bitarray : List Bool) (offset size raw_value : Nat) :
    write_unsigned bitarray offset size raw_value =
      if size = 0 then some bitarray
      else if offset + size ≤ bitarray.length then
        some (set_raw bitarray offset size raw_value)
      else none := by
  induction size generalizing raw_value with
  | zero => rw [write_unsigned_zero, if_pos rfl]
  | succ s ih =>
      rw [write_unsigned_succ, ih, if_neg (by omega : ¬(s + 1 = 0))]
      rcases Nat.eq_zero_or_pos s with hs | hs
      · subst hs
        rw [if_pos rfl]
        show setBit bitarray (offset + 0) (raw_value.testBit 0) = _
        rw [setBit]
        by_cases hlen : offset + 0 < bitarray.length
        · rw [if_pos hlen, if_pos (by omega : offset + (0 + 1) ≤ bitarray.length)]
          rw [set_raw_succ, set_raw_zero]
        · rw [if_neg hlen, if_neg (by omega : ¬(offset + (0 + 1) ≤ bitarray.length))]
      · rw [if_neg (by omega : ¬(s = 0))]
        by_cases hlen : offset + s ≤ bitarray.length
        · rw [if_pos hlen]
          show setBit (set_raw bitarray offset s (raw_value / 2)) (offset + s)
              (raw_value.testBit 0) = _
          rw [setBit, set_raw_length]
          by_cases hlen2 : offset + s < bitarray.length
          · rw [if_pos hlen2, if_pos (by omega : offset + (s + 1) ≤ bitarray.length),
              set_raw_succ]
          · rw [if_neg hlen2, if_neg (by omega : ¬(offset + (s + 1) ≤ bitarray.length))]
        · rw [if_neg hlen, if_neg (by omega : ¬(offset + (s + 1) ≤ bitarray.length))]
          rfl

/-- Characterization of the fallible read for positive sizes: it returns
`none` exactly when the slice is empty, i.e. when `offset` is at or beyond the
end of the sequence; otherwise it returns the (possibly truncated) parse. -/
theorem read_unsigned_eq (bitarray : List Bool) (offset size : Nat) (hs : 1 ≤ size) :
    read_unsigned bitarray offset size =
      if bitarray.length ≤ offset then none
      else some (get_raw bitarray offset size) := by
  simp only [read_unsigned]
  by_cases h : bitarray.length ≤ offset
  · have hsl : (bitarray.drop offset).take size = [] :=
      List.take_eq_nil_iff.mpr (Or.inr (List.drop_eq_nil_iff.mpr h))
    rw [hsl, if_pos h]
    rfl
  · have hne : (bitarray.drop offset).take size ≠ [] := by
      intro hc
      rcases List.take_eq_nil_iff.mp hc with h0 | hdrop
      · omega
      · exact h (List.drop_eq_nil_iff.mp hdrop)
    have hempty : ((bitarray.drop offset).take size).isEmpty = false := by
      cases hE : ((bitarray.drop offset).take size).isEmpty
      · rfl
      · exact absurd (List.isEmpty_iff.mp hE) hne
    rw [hempty, if_neg h]
    rfl

/-- C4: for every bit sequence, every size from 1 to 32, every offset such
that the write succeeds (which, by `write_unsigned_eq`, means
`offset + size ≤ length`), and every `raw_value < 2 ^ size`, reading back the
just-written field returns `raw_value`, and every bit outside
`[offset, offset+size)` is unchanged by the write. -/
theorem c4_roundtrip_frame (bitarray bl : List Bool) (offset size raw_value : Nat)
    (h1 : 1 ≤ size) (h2 : size ≤ 32) (hv : raw_value < 2 ^ size)
    (hw : write_unsigned bitarray offset size raw_value = some bl) :
    read_unsigned bl offset size = some raw_value ∧
    ∀ i, i < offset ∨ offset + size ≤ i → bl[i]? = bitarray[i]? := by
  rw [write_unsigned_eq, if_neg (by omega : ¬(size = 0))] at hw
  by_cases hlen : offset + size ≤ bitarray.length
  · rw [if_pos hlen] at hw
    obtain rfl : set_raw bitarray offset size raw_value = bl := Option.some.inj hw
    constructor
    · rw [read_unsigned_eq _ _ _ h1,
        if_neg (by rw [set_raw_length]; omega :
          ¬((set_raw bitarray offset size raw_value).length ≤ offset)),
        get_raw_set_raw _ _ _ _ hlen hv]
    · intro i hi
      rw [set_raw_getElem? _ _ _ _ hlen i, if_neg (by omega)]
  · rw [if_neg hlen] at hw
    exact absurd hw (by simp)

/-- C4 witness: writing `11` into a 4-bit window at offset `2` of an 8-bit
sequence of zeros, then reading it back. -/
theorem c4_witness :
    (1 ≤ 4 ∧ 4 ≤ 32 ∧ 11 < 2 ^ 4 ∧
      write_unsigned (List.replicate 8 false) 2 4 11 =
        some [false, false, true, false, true, true, false, false]) ∧
    read_unsigned [false, false, true, false, true, true, false, false] 2 4 = some 11 ∧
    [false, false, true, false, true, true, false, false][6]? =
      (List.replicate 8 false)[6]? :=
  ⟨⟨by decide, by decide, by decide, by decide⟩,
    (c4_roundtrip_frame (List.replicate 8 false)
      [false, false, true, false, true, true, false, false] 2 4 11
      (by decide) (by decide) (by decide) (by decide)).1,
    (c4_roundtrip_frame (List.replicate 8 false)
      [false, false, true, false, true, true, false, false] 2 4 11
      (by decide) (by decide) (by decide) (by decide)).2 6 (by omega)⟩

/-- C5 counterexample: a read whose window sticks out of an 8-bit sequence
(`offset+size = 12 > 8`) does not fail: the slice silently truncates and the
read returns a value. -/
theorem c5_counterexample :
    bits00.length < 4 + 8 ∧
    read_unsigned bits00 4 8 = some 0 ∧
    read_unsigned bits00 4 8 ≠ none := by decide

/-- C5 (amended): for positive sizes, the write fails whenever
`offset + size` exceeds the sequence length, but the read fails only when the
slice is empty, i.e. when `offset` is at or beyond the sequence length;
in between it silently reads the truncated slice. -/
theorem c5_out_of_range (bitarray : List Bool) (offset size raw_value : Nat)
    (hs : 1 ≤ size) :
    (bitarray.length < offset + size →
      write_unsigned bitarray offset size raw_value = none) ∧
    (read_unsigned bitarray offset size = none ↔ bitarray.length ≤ offset) := by
  constructor
  · intro hlen
    rw [write_unsigned_eq, if_neg (by omega : ¬(size = 0)), if_neg (by omega)]
  · rw [read_unsigned_eq _ _ _ hs]
    by_cases h : bitarray.length ≤ offset
    · simp [h]
    · simp [h]

/-- C5 witness: on the empty sequence, a 1-bit write at offset 0 fails and a
1-bit read at offset 0 fails. -/
theorem c5_witness :
    (1 ≤ 1 ∧ ([] : List Bool).length < 0 + 1 ∧ write_unsigned [] 0 1 0 = none) ∧
    read_unsigned [] 0 1 = none :=
  ⟨⟨by decide, by decide, (c5_out_of_range [] 0 1 0 (by decide)).1 (by decide)⟩,
    (c5_out_of_range [] 0 1 0 (by decide)).2.mpr (by decide)⟩

/-- A failing field conversion propagates out of the `get_values` loop: if all
fields before `f` convert successfully and `f`'s conversion raises, the whole
loop raises, whatever the accumulated output so far. -/
theorem decodeFields_append_error (f : FieldDef) (post : List FieldDef)
    (bitarray status_bits : List Bool) (e : DecodeError)
    (hf : decodeField f bitarray status_bits = .error e) :
    ∀ (pre : List FieldDef) (output : List (String × DecodedValue)),
      (∀ g ∈ pre, ∃ r, decodeField g bitarray status_bits = .ok r) →
      decodeFields (pre ++ f :: post) bitarray status_bits output = .error e := by
  intro pre
  induction pre with
  | nil =>
      intro output _
      simp [decodeFields, hf]
  | cons g pre ih =>
      intro output hpre
      obtain ⟨r, hr⟩ := hpre g (List.mem_cons_self g pre)
      show decodeFields (g :: (pre ++ f :: post)) bitarray status_bits output = .error e
      simp only [decodeFields, hr]
      exact ih (odUpdate output r) (fun g' hg' => hpre g' (List.mem_cons_of_mem g hg'))

/-- C6 counterexample: the variant `[enumNoMatch, boolField]`, on data bits
that match no enum item, makes `get_values` abort with the field's error even
though the second field (`boolField`) converts successfully on its own; no
entry for the second field is returned, contradicting the claim that decoding
continues past a failing field. -/
theorem c6_counterexample :
    get_values (some [enumNoMatch, boolField]) [false, false] [true] =
      .error .malformedField ∧
    decodeField boolField [false, false] [true] =
      .ok ("S", ⟨"a status bit", "", .bool true, 1⟩) :=
  ⟨rfl, rfl⟩

/-- C6 (amended): a conversion failure on one field aborts the batch decode:
the error is propagated out of `get_values` and no entries at all are
returned, in particular none for the remaining fields, even those that would
convert successfully. -/
theorem c6_error_aborts_decode (pre : List FieldDef) (f : FieldDef)
    (post : List FieldDef) (bitarray status_bits : List Bool) (e : DecodeError)
    (hpre : ∀ g ∈ pre, ∃ r, decodeField g bitarray status_bits = .ok r)
    (hf : decodeField f bitarray status_bits = .error e) :
    get_values (some (pre ++ f :: post)) bitarray status_bits = .error e :=
  decodeFields_append_error f post bitarray status_bits e hf pre [] hpre

/-- C6 witness: the amended claim instantiated with one successfully
converting field before the failing enum field. -/
theorem c6_witness :
    decodeField enumNoMatch [false, false] [true] = .error .malformedField ∧
    get_values (some ([boolField] ++ enumNoMatch :: [])) [false, false] [true] =
      .error .malformedField :=
  ⟨rfl,
    c6_error_aborts_decode [boolField] enumNoMatch [] [false, false] [true]
      .malformedField
      (fun g hg => by
        rw [List.mem_singleton] at hg
        subst hg
        exact ⟨("S", ⟨"a status bit", "", .bool true, 1⟩), rfl⟩)
      rfl⟩

/-- C7 counterexample: for the temperature field with `range=[0,255]` and
`scale=[-40.0,0.0]`, the byte `0xFF` (raw `255`) decodes to exactly `0`, not
approximately `-40`, and the byte `0x00` (raw `0`) decodes to exactly `-40`,
not approximately `0`: the two expected values of the claim are swapped
(`0` and `-40` differ by `40`, far beyond any rounding tolerance). -/
theorem c7_counterexample :
    decodeField tmpField bitsFF [] =
      .ok ("TMP", ⟨"Temperature", "°C", .num 0, 255⟩) ∧
    decodeField tmpField bits00 [] =
      .ok ("TMP", ⟨"Temperature", "°C", .num (-40), 0⟩) ∧
    (0 : ℚ) ≠ -40 := by
  refine ⟨?_, ?_, by norm_num⟩
  · have hraw : get_raw bitsFF 0 8 = 255 := by decide
    simp only [decodeField, tmpField, get_value, hraw]
    rw [if_neg (by norm_num : ¬(255 : ℚ) = 0)]
    norm_num
  · have hraw : get_raw bits00 0 8 = 0 := by decide
    simp only [decodeField, tmpField, get_value, hraw]
    rw [if_neg (by norm_num : ¬(255 : ℚ) = 0)]
    norm_num

/-- C7 (amended): with `range=[0,255]`, `scale=[-40.0,0.0]` and the linear
rescale `value = (scale_max - scale_min) / (range_max - range_min) *
(raw - range_min) + scale_min`, the byte `0xFF` decodes to `0.0` and the byte
`0x00` decodes to `-40.0` (the claim's two expected values, swapped). -/
theorem c7_temperature_scenario :
    decodeField tmpField bitsFF [] =
      .ok ("TMP", ⟨"Temperature", "°C", .num 0, 255⟩) ∧
    decodeField tmpField bits00 [] =
      .ok ("TMP", ⟨"Temperature", "°C", .num (-40), 0⟩) := by
  constructor
  · have hraw : get_raw bitsFF 0 8 = 255 := by decide
    simp only [decodeField, tmpField, get_value, hraw]
    rw [if_neg (by norm_num : ¬(255 : ℚ) = 0)]
    norm_num
  · have hraw : get_raw bits00 0 8 = 0 := by decide
    simp only [decodeField, tmpField, get_value, hraw]
    rw [if_neg (by norm_num : ¬(255 : ℚ) = 0)]
    norm_num

/-- C8: for every enumerated field, the decode first looks up an `item` whose
declared value equals the raw unsigned integer; if none matches, it searches
the `rangeitem`s for one whose inclusive `[start, end]` interval contains the
raw value; a successful match yields the matched description with the raw
value substituted for its placeholder; and if nothing matches, the result is
the `malformedField` error, not a silently defaulted value. -/
theorem c8_enum_lookup_order (shortcut description unit : String)
    (offset size : Nat) (items : List EnumItem) (rangeItems : List RangeItem)
    (bitarray status_bits : List Bool) :
    (∀ it, items.find? (fun it => it.value == get_raw bitarray offset size) = some it →
      decodeField (.enum shortcut description unit offset size items rangeItems)
          bitarray status_bits =
        .ok (shortcut, ⟨description, unit,
          .str (formatValue it.description (get_raw bitarray offset size)),
          get_raw bitarray offset size⟩)) ∧
    (items.find? (fun it => it.value == get_raw bitarray offset size) = none →
      ∀ ri, rangeItems.find?
          (fun ri => decide (ri.start ≤ get_raw bitarray offset size) &&
            decide (get_raw bitarray offset size ≤ ri.stop)) = some ri →
        decodeField (.enum shortcut description unit offset size items rangeItems)
            bitarray status_bits =
          .ok (shortcut, ⟨description, unit,
            .str (formatValue ri.description (get_raw bitarray offset size)),
            get_raw bitarray offset size⟩)) ∧
    (items.find? (fun it => it.value == get_raw bitarray offset size) = none →
      rangeItems.find?
          (fun ri => decide (ri.start ≤ get_raw bitarray offset size) &&
            decide (get_raw bitarray offset size ≤ ri.stop)) = none →
        decodeField (.enum shortcut description unit offset size items rangeItems)
            bitarray status_bits = .error .malformedField) := by
  refine ⟨?_, ?_, ?_⟩
  · intro it hit
    simp only [decodeField, get_enum, hit]
  · intro hnone ri hri
    simp only [decodeField, get_enum, get_rangeitem, hnone, hri, Option.map_some']
  · intro hnone hrnone
    simp only [decodeField, get_enum, get_rangeitem, hnone, hrnone, Option.map_none']

/-- C8 witness: raw value `5` matches the declared item and decodes to
`Open`; raw value `7` matches no item, falls inside the range-item `[6,10]`
and decodes to `Mid 7`. -/
theorem c8_witness :
    [openItem].find? (fun it => it.value == get_raw bitsRaw5 0 4) = some openItem ∧
    decodeField enumField8 bitsRaw5 [] =
      .ok ("EN", ⟨"an enum", "", .str "Open", 5⟩) ∧
    [openItem].find? (fun it => it.value == get_raw bitsRaw7 0 4) = none ∧
    [midItem].find?
        (fun ri => decide (ri.start ≤ get_raw bitsRaw7 0 4) &&
          decide (get_raw bitsRaw7 0 4 ≤ ri.stop)) = some midItem ∧
    decodeField enumField8 bitsRaw7 [] =
      .ok ("EN", ⟨"an enum", "", .str "Mid 7", 7⟩) ∧
    formatValue "Mid \x7bvalue\x7d" 7 = "Mid 7" :=
  ⟨rfl,
    (c8_enum_lookup_order "EN" "an enum" "" 0 4 [openItem] [midItem] bitsRaw5 []).1
      openItem rfl,
    rfl,
    rfl,
    ((c8_enum_lookup_order "EN" "an enum" "" 0 4 [openItem] [midItem] bitsRaw7 []).2).1
      rfl midItem rfl,
    rfl⟩

/-- Looking up the updated key after the in-place replacement branch of
`odUpdate`. -/
theorem odLookup_map_replace_self (out : List (String × DecodedValue))
    (k : String) (v : DecodedValue) (h : out.any (fun p => p.1 == k) = true) :
    odLookup k (out.map (fun p => if p.1 == k then (p.1, v) else p)) = some v := by
  induction out with
  | nil => simp at h
  | cons q out ih =>
      cases hq : q.1 == k with
      | true =>
          rw [List.map_cons, if_pos hq]
          simp [odLookup, hq]
      | false =>
          have h' : out.any (fun p => p.1 == k) = true := by
            simpa [List.any_cons, hq] using h
          rw [List.map_cons, if_neg (by simp [hq])]
          simp [odLookup, hq]
          simpa using ih h'

/-- Looking up a different key is unaffected by the replacement branch of
`odUpdate`. -/
theorem odLookup_map_replace_ne (out : List (String × DecodedValue))
    (k k' : String) (v : DecodedValue) (h : k' ≠ k) :
    odLookup k' (out.map (fun p => if p.1 == k then (p.1, v) else p)) =
      odLookup k' out := by
  induction out with
  | nil => rfl
  | cons q out ih =>
      cases hq : q.1 == k with
      | true =>
          have hq1 : q.1 = k := eq_of_beq hq
          have hqk' : (q.1 == k') = false := by
            rw [beq_eq_false_iff_ne]
            intro hc
            exact h (hc.symm.trans hq1)
          rw [List.map_cons, if_pos hq]
          simp [odLookup, hqk']
          simpa using ih
      | false =>
          rw [List.map_cons, if_neg (by simp [hq])]
          cases hq' : q.1 == k' with
          | true => simp [odLookup, hq']
          | false =>
              simp [odLookup, hq']
              simpa using ih

/-- Looking up the appended key in the append branch of `odUpdate`. -/
theorem odLookup_append_self (out : List (String × DecodedValue))
    (k : String) (v : DecodedValue) (h : out.any (fun p => p.1 == k) = false) :
    odLookup k (out ++ [(k, v)]) = some v := by
  induction out with
  | nil => simp [odLookup]
  | cons q out ih =>
      rw [List.any_cons, Bool.or_eq_false_iff] at h
      obtain ⟨hq, h'⟩ := h
      simp [odLookup, hq, ih h']

/-- Looking up a different key is unaffected by the append branch of
`odUpdate`. -/
theorem odLookup_append_ne (out : List (String × DecodedValue))
    (k k' : String) (v : DecodedValue) (h : k' ≠ k) :
    odLookup k' (out ++ [(k, v)]) = odLookup k' out := by
  induction out with
  | nil =>
      have hk : (k == k') = false := by
        rw [beq_eq_false_iff_ne]
        exact fun hc => h hc.symm
      simp [odLookup, hk]
  | cons q out ih =>
      cases hq : q.1 == k' with
      | true => simp [odLookup, hq]
      | false => simp [odLookup, hq, ih]

/-- After `odUpdate out kv`, looking up `kv`'s key yields `kv`'s value. -/
theorem odUpdate_lookup_self (out : List (String × DecodedValue))
    (kv : String × DecodedValue) :
    odLookup kv.1 (odUpdate out kv) = some kv.2 := by
  cases hany : out.any (fun p => p.1 == kv.1) with
  | true =>
      rw [odUpdate, hany, if_pos rfl]
      exact odLookup_map_replace_self out kv.1 kv.2 hany
  | false =>
      rw [odUpdate, hany, if_neg (by simp)]
      exact odLookup_append_self out kv.1 kv.2 hany

/-- After `odUpdate out kv`, looking up any other key is unchanged. -/
theorem odUpdate_lookup_ne (out : List (String × DecodedValue))
    (kv : String × DecodedValue) (k' : String) (h : k' ≠ kv.1) :
    odLookup k' (odUpdate out kv) = odLookup k' out := by
  cases hany : out.any (fun p => p.1 == kv.1) with
  | true =>
      rw [odUpdate, hany, if_pos rfl]
      exact odLookup_map_replace_ne out kv.1 k' kv.2 h
  | false =>
      rw [odUpdate, hany, if_neg (by simp)]
      exact odLookup_append_ne out kv.1 k' kv.2 h

/-- `odUpdate` preserves distinctness of the keys. -/
theorem odUpdate_keys_nodup (out : List (String × DecodedValue))
    (kv : String × DecodedValue) (h : (out.map Prod.fst).Nodup) :
    ((odUpdate out kv).map Prod.fst).Nodup := by
  cases hany : out.any (fun p => p.1 == kv.1) with
  | true =>
      rw [odUpdate, hany, if_pos rfl]
      have hmap : (out.map (fun p => if p.1 == kv.1 then (p.1, kv.2) else p)).map
          Prod.fst = out.map Prod.fst := by
        rw [List.map_map]
        apply List.map_congr_left
        intro p _
        cases hc : p.1 == kv.1 <;> simp [Function.comp, hc]
      rw [hmap]
      exact h
  | false =>
      rw [odUpdate, hany, if_neg (by simp)]
      rw [List.map_append, List.nodup_append]
      refine ⟨h, List.nodup_singleton _, ?_⟩
      intro a ha hb
      have hall := List.any_eq_false.mp hany
      obtain ⟨p, hp, rfl⟩ := List.mem_map.mp ha
      have hne := hall p hp
      simp only [beq_iff_eq] at hne
      simp only [List.map_cons, List.map_nil, List.mem_singleton] at hb
      exact hne hb

/-- With distinct keys, a successful lookup means exactly one entry carries
the key. -/
theorem lookup_count_one (out : List (String × DecodedValue)) (s : String)
    (dv : DecodedValue) (hnd : (out.map Prod.fst).Nodup)
    (hl : odLookup s out = some dv) :
    (out.filter (fun kv => kv.1 == s)).length = 1 := by
  induction out with
  | nil => simp [odLookup] at hl
  | cons q out ih =>
      rw [List.map_cons, List.nodup_cons] at hnd
      obtain ⟨hq, hnd'⟩ := hnd
      cases hqs : q.1 == s with
      | true =>
          have hq1 : q.1 = s := eq_of_beq hqs
          have hfe : out.filter (fun kv => kv.1 == s) = [] := by
            rw [List.filter_eq_nil_iff]
            intro p hp
            intro hps
            exact hq (List.mem_map.mpr ⟨p, hp, by rw [eq_of_beq hps, ← hq1]⟩)
          simp [List.filter_cons, hqs, hfe]
      | false =>
          have hl' : odLookup s out = some dv := by
            simpa [odLookup, hqs] using hl
          simp [List.filter_cons, hqs, ih hnd' hl']

/-- Every successful field conversion is keyed by the field's shortcut. -/
theorem decodeField_fst (f : FieldDef) (bitarray status_bits : List Bool)
    (kv : String × DecodedValue)
    (h : decodeField f bitarray status_bits = .ok kv) : kv.1 = fieldShortcut f := by
  cases f with
  | value sc d u o s rmin rmax smin smax =>
      simp only [decodeField, get_value] at h
      split at h
      · exact absurd h (by simp)
      · simp only [Except.ok.injEq] at h
        rw [← h]
        rfl
  | enum sc d u o s items ritems =>
      simp only [decodeField, get_enum] at h
      split at h
      · exact absurd h (by simp)
      · simp only [Except.ok.injEq] at h
        rw [← h]
        rfl
  | status sc d u o s =>
      simp only [decodeField, get_boolean, Except.ok.injEq] at h
      rw [← h]
      rfl

/-- The invariant of the `get_values` loop: a key's final value comes from the
last field in declaration order carrying that shortcut, and keys absent from
the processed fields keep whatever the accumulator held. -/
theorem decodeFields_lookup (bitarray status_bits : List Bool) (s : String) :
    ∀ (fs : List FieldDef) (output out : List (String × DecodedValue)),
      decodeFields fs bitarray status_bits output = .ok out →
      (∀ f, fs.reverse.find? (fun g => fieldShortcut g == s) = some f →
        ∃ dv, decodeField f bitarray status_bits = .ok (s, dv) ∧
          odLookup s out = some dv) ∧
      (fs.reverse.find? (fun g => fieldShortcut g == s) = none →
        odLookup s out = odLookup s output) := by
  intro fs
  induction fs with
  | nil =>
      intro output out h
      simp only [decodeFields, Except.ok.injEq] at h
      constructor
      · intro f hf
        simp at hf
      · intro _
        rw [h]
  | cons g fs ih =>
      intro output out h
      cases hd : decodeField g bitarray status_bits with
      | error e =>
          simp [decodeFields, hd] at h
      | ok kv =>
          simp only [decodeFields, hd] at h
          have hkey := decodeField_fst g bitarray status_bits kv hd
          obtain ⟨ihf, ihn⟩ := ih (odUpdate output kv) out h
          rw [List.reverse_cons]
          constructor
          · intro f hf
            rw [List.find?_append] at hf
            cases hrev : fs.reverse.find? (fun g' => fieldShortcut g' == s) with
            | some f' =>
                rw [hrev] at hf
                have hff : f' = f := Option.some.inj hf
                exact ihf f (hff ▸ hrev)
            | none =>
                rw [hrev] at hf
                have hf' : List.find? (fun g' => fieldShortcut g' == s) [g] = some f := hf
                cases hpg : fieldShortcut g == s with
                | true =>
                    have hfg : g = f := by simpa [List.find?, hpg] using hf'
                    subst hfg
                    have hs' : kv.1 = s := hkey.trans (eq_of_beq hpg)
                    refine ⟨kv.2, ?_, ?_⟩
                    · rw [← hs', Prod.mk.eta]
                      exact hd
                    · rw [ihn hrev, ← hs']
                      exact odUpdate_lookup_self output kv
                | false => simp [List.find?, hpg] at hf'
          · intro hnone
            rw [List.find?_append] at hnone
            cases hrev : fs.reverse.find? (fun g' => fieldShortcut g' == s) with
            | some f' =>
                rw [hrev] at hnone
                exact absurd hnone (by simp)
            | none =>
                rw [hrev] at hnone
                have hg : List.find? (fun g' => fieldShortcut g' == s) [g] = none := hnone
                cases hpg : fieldShortcut g == s with
                | true => simp [List.find?, hpg] at hg
                | false =>
                    have hne : s ≠ kv.1 := by
                      intro hc
                      have : fieldShortcut g = s := (hc.trans hkey).symm
                      rw [this, beq_self_eq_true s] at hpg
                      exact absurd hpg (by simp)
                    rw [ihn hrev, odUpdate_lookup_ne output kv s hne]

/-- The `get_values` loop preserves distinctness of the output keys. -/
theorem decodeFields_nodup (bitarray status_bits : List Bool) :
    ∀ (fs : List FieldDef) (output out : List (String × DecodedValue)),
      decodeFields fs bitarray status_bits output = .ok out →
      (output.map Prod.fst).Nodup → (out.map Prod.fst).Nodup := by
  intro fs
  induction fs with
  | nil =>
      intro output out h hnd
      simp only [decodeFields, Except.ok.injEq] at h
      rw [← h]
      exact hnd
  | cons g fs ih =>
      intro output out h hnd
      cases hd : decodeField g bitarray status_bits with
      | error e => simp [decodeFields, hd] at h
      | ok kv =>
          simp only [decodeFields, hd] at h
          exact ih (odUpdate output kv) out h (odUpdate_keys_nodup output kv hnd)

/-- C9: when a variant's decode succeeds and some field carries shortcut `s`,
the result contains exactly one entry for `s`, and it holds the decoded value
of the last field with that shortcut in declaration order (later fields
overwrite earlier ones within the same decode call). -/
theorem c9_duplicate_shortcut (fs : List FieldDef) (bitarray status_bits : List Bool)
    (out : List (String × DecodedValue)) (s : String) (f : FieldDef)
    (hok : get_values (some fs) bitarray status_bits = .ok out)
    (hlast : fs.reverse.find? (fun g => fieldShortcut g == s) = some f) :
    (out.filter (fun kv => kv.1 == s)).length = 1 ∧
    ∃ dv, decodeField f bitarray status_bits = .ok (s, dv) ∧
      odLookup s out = some dv := by
  have hok' : decodeFields fs bitarray status_bits [] = .ok out := hok
  obtain ⟨dv, hdv, hlk⟩ :=
    (decodeFields_lookup bitarray status_bits s fs [] out hok').1 f hlast
  have hnd : (out.map Prod.fst).Nodup :=
    decodeFields_nodup bitarray status_bits fs [] out hok' (by simp)
  exact ⟨lookup_count_one out s dv hnd hlk, dv, hdv, hlk⟩

/-- C9 witness: two status-bit fields both named `X`; the decode yields a
single entry holding the value of the later-declared field. -/
theorem c9_witness :
    get_values (some [statusX1, statusX2]) [] statusBitsX =
      .ok [("X", ⟨"second", "", .bool true, 1⟩)] ∧
    [statusX1, statusX2].reverse.find? (fun g => fieldShortcut g == "X") =
      some statusX2 ∧
    (([("X", (⟨"second", "", .bool true, 1⟩ : DecodedValue))].filter
        (fun kv => kv.1 == "X")).length = 1 ∧
      ∃ dv, decodeField statusX2 [] statusBitsX = .ok ("X", dv) ∧
        odLookup "X" [("X", (⟨"second", "", .bool true, 1⟩ : DecodedValue))] =
          some dv) :=
  ⟨rfl, rfl,
    c9_duplicate_shortcut [statusX1, statusX2] [] statusBitsX
      [("X", ⟨"second", "", .bool true, 1⟩)] "X" statusX2 rfl rfl⟩
